import Mathlib

/-!
Verification of the duplicate-file detector in `DuplicateDetective.py`.

The development is a shallow embedding of the program.  Filesystem effects
are abstracted into explicit inputs:

* the content hash of a file is an oracle `hashOf : String → Option String`
  standing for `compute_fast_hash` (a deterministic function of the path on
  a fixed, unmodified tree; `none` models the `except`-branch returning
  `None`);
* the unordered completion of `Pool.imap_unordered` is a schedule
  `sched : List FileRecord → List FileRecord` giving, for each submitted
  group, the arrival order of its results; theorems that depend on it
  assume `(sched g).Perm g`;
* `os.walk` output is a `WalkRun` value; the tree walker and the scan
  coordinator are functions of those values.

Python `dict`s (and `defaultdict(list)`) are embedded as association lists
in key-insertion order, which is exactly the iteration order of a Python
dict, with `appendAt` modelling `d[k].append(v)` and `insertA` modelling
`d[k] = v`.
-/

namespace DuplicateDetective

/-- A record produced by the tree walker for one stat-able file:
the dictionary `{'path': …, 'size': …, 'mtime': …}` built in `scan_folder`. -/
structure FileRecord where
  path : String
  size : Nat
  mtime : Nat
deriving DecidableEq, Repr

section AssocList

variable {α : Type} {κ : Type} {β : Type} [DecidableEq κ]

/-- Model of `defaultdict(list)` update `m[k].append(b)`: the first entry
with key `k` gets `b` appended; a missing key is added at the end (Python
dicts keep insertion order). -/
def appendAt (m : List (κ × List β)) (k : κ) (b : β) : List (κ × List β) :=
  match m with
  | [] => [(k, [b])]
  | (k', v) :: rest =>
      if k' = k then (k', v ++ [b]) :: rest else (k', v) :: appendAt rest k b

/-- Model of dict lookup `m[k]` as an `Option`. -/
def lookupA (m : List (κ × β)) (k : κ) : Option β :=
  match m with
  | [] => none
  | (k', v) :: rest => if k' = k then some v else lookupA rest k

/-- Model of dict assignment `m[k] = b`: overwrite the first entry with
key `k`, or add the key at the end. -/
def insertA (m : List (κ × β)) (k : κ) (b : β) : List (κ × β) :=
  match m with
  | [] => [(k, b)]
  | (k', v) :: rest =>
      if k' = k then (k', b) :: rest else (k', v) :: insertA rest k b

/-- One iteration of a grouping loop: items whose key is `none` are
skipped, the rest are appended to their key's bucket. -/
def groupStep (key : α → Option κ) (val : α → β)
    (m : List (κ × List β)) (a : α) : List (κ × List β) :=
  match key a with
  | some k => appendAt m k (val a)
  | none => m

/-- The grouping loops of `group_by_size` and `group_by_hash`: fold a list
into a `defaultdict(list)`. -/
def groupFold (key : α → Option κ) (val : α → β) (l : List α) :
    List (κ × List β) :=
  l.foldl (groupStep key val) []

/-- The bucket a grouping loop accumulates under key `k`: the values of
the items of `l` whose key is `k`, in list order. -/
def bucketOf (key : α → Option κ) (val : α → β) (k : κ) (l : List α) :
    List β :=
  (l.filter (fun a => decide (key a = some k))).map val

/-- One iteration of a last-write-wins dict loop (`size_map[h] = size`). -/
def dictStep (key : α → Option κ) (val : α → β)
    (m : List (κ × β)) (a : α) : List (κ × β) :=
  match key a with
  | some k => insertA m k (val a)
  | none => m

/-- The `size_map` accumulation of `group_by_hash`: a fold of plain dict
assignments. -/
def dictFold (key : α → Option κ) (val : α → β) (l : List α) :
    List (κ × β) :=
  l.foldl (dictStep key val) []

/-- Keys of an association list, in order. -/
def keysOf (m : List (κ × β)) : List κ := m.map Prod.fst

theorem lookupA_appendAt (m : List (κ × List β)) (k k' : κ) (b : β) :
    lookupA (appendAt m k b) k' =
      if k' = k then some ((lookupA m k).getD [] ++ [b]) else lookupA m k' := by
  induction m with
  | nil =>
      by_cases h : k' = k
      · subst h; simp [appendAt, lookupA]
      · simp [appendAt, lookupA, h, Ne.symm h]
  | cons kv rest ih =>
      obtain ⟨k₀, v₀⟩ := kv
      by_cases h0 : k₀ = k
      · subst h0
        by_cases h1 : k' = k₀
        · subst h1; simp [appendAt, lookupA]
        · simp [appendAt, lookupA, h1, Ne.symm h1]
      · by_cases h1 : k₀ = k'
        · subst h1
          simp [appendAt, lookupA, h0, Ne.symm h0]
        · simp [appendAt, lookupA, h0, h1, ih]

theorem lookupA_insertA (m : List (κ × β)) (k k' : κ) (b : β) :
    lookupA (insertA m k b) k' =
      if k' = k then some b else lookupA m k' := by
  induction m with
  | nil =>
      by_cases h : k' = k
      · subst h; simp [insertA, lookupA]
      · simp [insertA, lookupA, h, Ne.symm h]
  | cons kv rest ih =>
      obtain ⟨k₀, v₀⟩ := kv
      by_cases h0 : k₀ = k
      · subst h0
        by_cases h1 : k' = k₀
        · subst h1; simp [insertA, lookupA]
        · simp [insertA, lookupA, h1, Ne.symm h1]
      · by_cases h1 : k₀ = k'
        · subst h1
          simp [insertA, lookupA, h0, Ne.symm h0]
        · simp [insertA, lookupA, h0, h1, ih]

theorem bucketOf_cons (key : α → Option κ) (val : α → β) (k : κ) (a : α)
    (l : List α) :
    bucketOf key val k (a :: l) =
      if key a = some k then val a :: bucketOf key val k l
      else bucketOf key val k l := by
  by_cases h : key a = some k <;> simp [bucketOf, List.filter_cons, h]

theorem lookupA_foldl_groupStep [DecidableEq β] (key : α → Option κ) (val : α → β)
    (l : List α) :
    ∀ (m : List (κ × List β)) (k : κ),
      lookupA (l.foldl (groupStep key val) m) k =
        if lookupA m k = none ∧ bucketOf key val k l = [] then none
        else some ((lookupA m k).getD [] ++ bucketOf key val k l) := by
  induction l with
  | nil =>
      intro m k
      cases h : lookupA m k <;> simp [bucketOf, h]
  | cons a l ih =>
      intro m k
      rw [List.foldl_cons, ih, bucketOf_cons]
      cases hk : key a with
      | none =>
          simp [groupStep, hk]
      | some k₀ =>
          by_cases hkk : k₀ = k
          · subst hkk
            simp only [groupStep, lookupA_appendAt, if_pos rfl, hk,
              if_pos rfl]
            cases hm : lookupA m k₀ <;> simp
          · have hkk' : ¬ k = k₀ := fun h => hkk h.symm
            simp [groupStep, hk, lookupA_appendAt, hkk, hkk']

theorem lookupA_groupFold [DecidableEq β] (key : α → Option κ) (val : α → β) (l : List α)
    (k : κ) :
    lookupA (groupFold key val l) k =
      if bucketOf key val k l = [] then none
      else some (bucketOf key val k l) := by
  rw [groupFold, lookupA_foldl_groupStep]
  by_cases h : bucketOf key val k l = [] <;> simp [lookupA, h]

theorem keysOf_appendAt (m : List (κ × List β)) (k : κ) (b : β) :
    keysOf (appendAt m k b) =
      if k ∈ keysOf m then keysOf m else keysOf m ++ [k] := by
  induction m with
  | nil => simp [appendAt, keysOf]
  | cons kv rest ih =>
      obtain ⟨k₀, v₀⟩ := kv
      by_cases h0 : k₀ = k
      · subst h0
        simp [appendAt, keysOf]
      · have h0' : ¬ k = k₀ := fun h => h0 h.symm
        simp only [appendAt, if_neg h0, keysOf, List.map_cons, List.mem_cons,
          h0', false_or] at ih ⊢
        rw [ih]
        by_cases hmem : k ∈ List.map Prod.fst rest <;> simp [hmem]

theorem nodup_keysOf_foldl_groupStep (key : α → Option κ) (val : α → β)
    (l : List α) :
    ∀ m : List (κ × List β), (keysOf m).Nodup →
      (keysOf (l.foldl (groupStep key val) m)).Nodup := by
  induction l with
  | nil => intro m hm; simpa using hm
  | cons a l ih =>
      intro m hm
      rw [List.foldl_cons]
      apply ih
      cases hk : key a with
      | none => simpa [groupStep, hk] using hm
      | some k₀ =>
          rw [groupStep.eq_def, hk, keysOf_appendAt]
          by_cases hmem : k₀ ∈ keysOf m
          · simpa [hmem] using hm
          · simp [hmem, List.nodup_append, hm]

theorem nodup_keysOf_groupFold (key : α → Option κ) (val : α → β)
    (l : List α) : (keysOf (groupFold key val l)).Nodup :=
  nodup_keysOf_foldl_groupStep key val l [] (by simp [keysOf])

theorem mem_iff_lookupA {m : List (κ × β)} (hm : (keysOf m).Nodup)
    {k : κ} {v : β} : (k, v) ∈ m ↔ lookupA m k = some v := by
  induction m with
  | nil => simp [lookupA]
  | cons kv rest ih =>
      obtain ⟨k₀, v₀⟩ := kv
      rw [keysOf, List.map_cons] at hm
      have hm1 : k₀ ∉ List.map Prod.fst rest := (List.nodup_cons.mp hm).1
      have hm2 : (keysOf rest).Nodup := (List.nodup_cons.mp hm).2
      by_cases h0 : k₀ = k
      · subst h0
        simp only [lookupA, if_pos rfl, List.mem_cons]
        constructor
        · rintro (heq | hmem')
          · rw [Prod.mk.injEq] at heq
            exact congrArg some heq.2.symm
          · exact absurd (List.mem_map_of_mem Prod.fst hmem') hm1
        · intro hsome
          exact Or.inl (by
            rw [Prod.mk.injEq]
            exact ⟨rfl, (Option.some_injective _ hsome).symm⟩)
      · simp only [lookupA, if_neg h0, List.mem_cons]
        rw [← ih hm2]
        constructor
        · rintro (heq | hmem')
          · rw [Prod.mk.injEq] at heq
            exact absurd heq.1.symm h0
          · exact hmem'
        · exact Or.inr

theorem mem_groupFold_iff [DecidableEq β] (key : α → Option κ) (val : α → β) (l : List α)
    (k : κ) (v : List β) :
    (k, v) ∈ groupFold key val l ↔
      bucketOf key val k l ≠ [] ∧ v = bucketOf key val k l := by
  rw [mem_iff_lookupA (nodup_keysOf_groupFold key val l), lookupA_groupFold]
  by_cases h : bucketOf key val k l = [] <;> simp [h, eq_comm]

theorem lookupA_foldl_dictStep [DecidableEq β] (key : α → Option κ) (val : α → β)
    (l : List α) :
    ∀ (m : List (κ × β)) (k : κ),
      lookupA (l.foldl (dictStep key val) m) k =
        if bucketOf key val k l = [] then lookupA m k
        else (bucketOf key val k l).getLast? := by
  induction l with
  | nil => intro m k; simp [bucketOf]
  | cons a l ih =>
      intro m k
      rw [List.foldl_cons, ih, bucketOf_cons]
      cases hk : key a with
      | none => simp [dictStep, hk]
      | some k₀ =>
          by_cases hkk : k₀ = k
          · subst hkk
            simp only [dictStep, hk, lookupA_insertA, if_pos rfl]
            by_cases hb : bucketOf key val k₀ l = []
            · simp [hb]
            · obtain ⟨x, xs, hxx⟩ : ∃ x xs, bucketOf key val k₀ l = x :: xs := by
                cases hbl : bucketOf key val k₀ l with
                | nil => exact absurd hbl hb
                | cons x xs => exact ⟨x, xs, rfl⟩
              simp [hb, hxx, List.getLast?_cons_cons]
          · have hkk' : ¬ k = k₀ := fun h => hkk h.symm
            simp [dictStep, hk, lookupA_insertA, hkk, hkk']

theorem lookupA_dictFold [DecidableEq β] (key : α → Option κ) (val : α → β) (l : List α)
    (k : κ) :
    lookupA (dictFold key val l) k =
      if bucketOf key val k l = [] then none
      else (bucketOf key val k l).getLast? := by
  rw [dictFold, lookupA_foldl_dictStep]
  by_cases h : bucketOf key val k l = [] <;> simp [lookupA, h]

/-- In a grouping fold, items whose key is `none` are invisible: removing
them from the input does not change the result. -/
theorem foldl_groupStep_filter (key : α → Option κ) (val : α → β)
    (q : α → Bool) (l : List α)
    (hq : ∀ a ∈ l, q a = false → key a = none) :
    ∀ m : List (κ × List β),
      l.foldl (groupStep key val) m = (l.filter q).foldl (groupStep key val) m := by
  induction l with
  | nil => intro m; simp
  | cons a l ih =>
      intro m
      have hl : ∀ a ∈ l, q a = false → key a = none := by
        intro x hx; exact hq x (List.mem_cons_of_mem a hx)
      cases hqa : q a with
      | true => simp [List.filter_cons, hqa, ih hl]
      | false =>
          have hka : key a = none := hq a (List.mem_cons_self a l) hqa
          simp [List.filter_cons, hqa, groupStep, hka, ih hl]

/-- Same for last-write-wins dict folds. -/
theorem foldl_dictStep_filter (key : α → Option κ) (val : α → β)
    (q : α → Bool) (l : List α)
    (hq : ∀ a ∈ l, q a = false → key a = none) :
    ∀ m : List (κ × β),
      l.foldl (dictStep key val) m = (l.filter q).foldl (dictStep key val) m := by
  induction l with
  | nil => intro m; simp
  | cons a l ih =>
      intro m
      have hl : ∀ a ∈ l, q a = false → key a = none := by
        intro x hx; exact hq x (List.mem_cons_of_mem a hx)
      cases hqa : q a with
      | true => simp [List.filter_cons, hqa, ih hl]
      | false =>
          have hka : key a = none := hq a (List.mem_cons_self a l) hqa
          simp [List.filter_cons, hqa, dictStep, hka, ih hl]

end AssocList

/-! ## Tree walker and scan coordinator -/

/-- Outcome of `os.stat(path)` for one directory entry: either the stat
fields, or the `OSError` branch that `scan_folder` skips with `continue`. -/
inductive StatResult where
  | ok (size : Nat) (mtime : Nat)
  | err
deriving DecidableEq, Repr

/-- One directory yielded by `os.walk`: its path and the `files` list with
each name's stat outcome. -/
structure WalkDir where
  dir : String
  files : List (String × StatResult)
deriving DecidableEq, Repr

/-- The observable behaviour of one `os.walk(folder)` enumeration:
the directories it yields before finishing (or before raising), and
whether it raised.  An exception while enumerating the root itself is the
case `dirs = []` and `errored = true`. -/
structure WalkRun where
  dirs : List WalkDir
  errored : Bool
deriving DecidableEq, Repr

/-- Embedding of `scan_folder`: every yielded directory contributes one
`FileRecord` per stat-able file; a file whose `os.stat` raises `OSError`
is skipped; a walk exception stops the loop with the records collected so
far (the surrounding `try` returns `folder_files` instead of raising). -/
def scan_folder (run : WalkRun) : List FileRecord :=
  run.dirs.flatMap (fun d =>
    d.files.filterMap (fun nf =>
      match nf.2 with
      | .ok size mtime => some ⟨d.dir ++ "/" ++ nf.1, size, mtime⟩
      | .err => none))

/-- The slicing loop `[base_folders[i:i+c] for i in range(0, n, c)]` for a
step `c ≥ 1` (the program always calls it with `c = max 1 (n / w)`). -/
def chunksOf {α : Type} (c : Nat) : List α → List (List α)
  | [] => []
  | x :: xs => (x :: xs.take (c - 1)) :: chunksOf c (xs.drop (c - 1))
termination_by l => l.length
decreasing_by
  simp only [List.length_cons, List.length_drop]
  omega

/-- The chunk list built by `scan_files_parallel` when the roots outnumber
the workers: `chunk_size = max(1, len(base_folders) // num_processes)`. -/
def folder_chunks (base_folders : List String) (num_processes : Nat) :
    List (List String) :=
  chunksOf (max 1 (base_folders.length / num_processes)) base_folders

/-- Embedding of `scan_files_parallel`.  The tree walker is abstracted as
`walk : String → List FileRecord` (what `scan_folder` returns for each
root); `pool.map` keeps submission order, so both branches are ordinary
`map`s followed by the flattening list comprehension. -/
def scan_files_parallel (walk : String → List FileRecord)
    (base_folders : List String) (num_processes : Nat) : List FileRecord :=
  if base_folders.length ≤ num_processes then
    (base_folders.map walk).flatten
  else
    ((folder_chunks base_folders num_processes).map
      (fun chunk => (chunk.map walk).flatten)).flatten

/-! ## Size grouper, content hasher, hash grouper -/

/-- Embedding of `group_by_size`: the `defaultdict(list)` loop keyed by
`f['size']`, then the comprehension keeping groups with more than one
member. -/
def group_by_size (files : List FileRecord) : List (Nat × List FileRecord) :=
  (groupFold (fun f => some f.size) id files).filter
    (fun sg => decide (1 < sg.2.length))

/-- The key under which `group_by_hash` files a record: `compute_fast_hash`
result of its path, with Python truthiness — both `None` and the empty
string fail the `if h:` test (`compute_fast_hash` never returns an empty
digest, but the code tests truthiness, not `is not None`). -/
def hashKey (hashOf : String → Option String) (f : FileRecord) :
    Option String :=
  match hashOf f.path with
  | some h => if h = "" then none else some h
  | none => none

/-- Embedding of `group_by_hash`.  `arrivals` is the completion order in
which `pool.imap_unordered` delivers `(path, size, hash)` triples — a
permutation of the submitted list.  First component: `hash_map` filtered
to buckets with more than one path; second: `size_map`. -/
def group_by_hash (hashOf : String → Option String)
    (arrivals : List FileRecord) :
    List (String × List String) × List (String × Nat) :=
  ((groupFold (hashKey hashOf) (fun f => f.path) arrivals).filter
      (fun hp => decide (1 < hp.2.length)),
   dictFold (hashKey hashOf) (fun f => f.size) arrivals)

/-! ## Content hasher (`compute_fast_hash`) -/

/-- Abstract model of the external `xxhash.xxh64` streaming state: the
state is the byte stream absorbed so far; `update` absorbs a chunk.  The
finalising mix of the real algorithm is an arbitrary function of the
absorbed stream, passed as `hexOf` to `compute_fast_hash`, so every
theorem below holds for the real digest as well. -/
structure XXH64 where
  absorbed : List Nat
deriving DecidableEq, Repr

/-- The fresh state `xxhash.xxh64()`. -/
def XXH64.new : XXH64 := ⟨[]⟩

/-- The streaming `h.update(chunk)` call. -/
def XXH64.update (h : XXH64) (chunk : List Nat) : XXH64 :=
  ⟨h.absorbed ++ chunk⟩

/-- The module constant `CHUNK_SIZE = 1024 * 1024 * 16`. -/
def CHUNK_SIZE : Nat := 1024 * 1024 * 16

/-- The `while chunk := f.read(c): h.update(chunk)` loop on a file whose
content is `content`: `f.read(c)` returns the next `c` bytes and the loop
stops at the first empty read, so for `c ≥ 1` the updates are exactly the
`c`-sized chunks of the content; `f.read(0)` returns `b''` at once and the
loop body never runs. -/
def readLoop (c : Nat) (content : List Nat) : XXH64 :=
  if c = 0 then XXH64.new
  else (chunksOf c content).foldl XXH64.update XXH64.new

/-- Embedding of `compute_fast_hash`: `none` input models the `except`
branch (open or read raised), returning `None`; otherwise the digest of
the streamed state is returned.  `hexOf` is the abstract hex-digest
function of the absorbed stream. -/
def compute_fast_hash (hexOf : List Nat → String) (c : Nat)
    (file : Option (List Nat)) : Option String :=
  match file with
  | some content => some (hexOf (readLoop c content).absorbed)
  | none => none

/-! ## Aggregation (`find_duplicates`) -/

/-- One entry of `duplicate_groups_with_size`. -/
structure DupGroup where
  paths : List String
  size : Nat
  count : Nat
  wasted_size : Nat
deriving DecidableEq, Repr

/-- Python `max(l, key=f)`: scans left to right and replaces the current
best only on a strictly larger key, hence returns the first maximiser;
`None` on the empty list (the code guards with `if duplicate_groups_with_size`). -/
def maxByFirst {α : Type} (f : α → Nat) : List α → Option α
  | [] => none
  | x :: xs => some (xs.foldl (fun best y => if f best < f y then y else best) x)

/-- The nested loop of `find_duplicates` over `grouped_by_size.items()`
and `fast_hash_groups.items()`, collecting `duplicate_groups_with_size`
entries in emission order. -/
def mkGroups (hashOf : String → Option String)
    (sched : List FileRecord → List FileRecord) (files : List FileRecord) :
    List DupGroup :=
  (group_by_size files).flatMap (fun sg =>
    let gb := group_by_hash hashOf (sched sg.2)
    gb.1.map (fun hp =>
      let sz := (lookupA gb.2 hp.1).getD 0
      { paths := hp.2
        size := sz
        count := hp.2.length
        wasted_size := (hp.2.length - 1) * sz }))

/-- The values `find_duplicates` computes from the scanned file list
(console/report formatting aside). -/
structure DupResult where
  duplicates : List (List String)
  total_duplicate_size : Nat
  duplicate_groups_count : Nat
  groups : List DupGroup
  most_duplicated_group : Option DupGroup
  largest_waste_group : Option DupGroup
  sorted_groups : List DupGroup
deriving DecidableEq, Repr

/-- Embedding of `find_duplicates` downstream of the scan: `files` is the
`scan_files_parallel` output, `hashOf` the content-hash oracle, `sched`
the per-group completion order of the hashing pool.  `duplicates`,
`total_duplicate_size` and `duplicate_groups_count` are accumulated by the
same nested loop that builds `duplicate_groups_with_size`, so they are its
per-group projections; the three derived values follow the Python
`max`/`sorted` calls. -/
def find_duplicates (hashOf : String → Option String)
    (sched : List FileRecord → List FileRecord) (files : List FileRecord) :
    DupResult :=
  let groups := mkGroups hashOf sched files
  { duplicates := groups.map (fun g => g.paths)
    total_duplicate_size := groups.foldl (fun t g => t + g.wasted_size) 0
    duplicate_groups_count := groups.length
    groups := groups
    most_duplicated_group := maxByFirst (fun g => g.count) groups
    largest_waste_group := maxByFirst (fun g => g.wasted_size) groups
    sorted_groups := groups.mergeSort
      (fun a b => decide (b.wasted_size ≤ a.wasted_size)) }

/-! ## Characterisation of the grouping pipeline -/

/-- The files of `files` whose size is exactly `s`. -/
def sizeBucket (s : Nat) (files : List FileRecord) : List FileRecord :=
  files.filter (fun f => decide (f.size = s))

/-- The paths of the records of `l` filed under hash `h` by the
`group_by_hash` loop. -/
def hashBucket (hashOf : String → Option String) (h : String)
    (l : List FileRecord) : List String :=
  bucketOf (hashKey hashOf) (fun f => f.path) h l

/-- The value `size_map[hash_val]` read by `find_duplicates` (0 as the
default is never used: the key is present whenever the hash bucket is
non-empty). -/
def groupSizeOf (hashOf : String → Option String) (h : String)
    (l : List FileRecord) : Nat :=
  (lookupA (dictFold (hashKey hashOf) (fun f => f.size) l) h).getD 0

/-- The `DupGroup` that `find_duplicates` emits for hash `h` of a size
group whose hashing pool delivered its results in the order `arr`. -/
def mkGroupAt (hashOf : String → Option String) (h : String)
    (arr : List FileRecord) : DupGroup :=
  { paths := hashBucket hashOf h arr
    size := groupSizeOf hashOf h arr
    count := (hashBucket hashOf h arr).length
    wasted_size := ((hashBucket hashOf h arr).length - 1) * groupSizeOf hashOf h arr }

theorem sizeKey_bucket (s : Nat) (files : List FileRecord) :
    bucketOf (fun f => some f.size) id s files = sizeBucket s files := by
  rw [bucketOf, sizeBucket, List.map_id]
  apply List.filter_congr
  intro a _
  exact decide_eq_decide.mpr Option.some_inj

theorem mem_group_by_size (files : List FileRecord) (s : Nat)
    (g : List FileRecord) :
    (s, g) ∈ group_by_size files ↔ g = sizeBucket s files ∧ 1 < g.length := by
  rw [group_by_size, List.mem_filter, mem_groupFold_iff, sizeKey_bucket]
  constructor
  · rintro ⟨⟨hne, hg⟩, hlen⟩
    exact ⟨hg, by simpa using hlen⟩
  · rintro ⟨hg, hlen⟩
    refine ⟨⟨?_, hg⟩, by simpa using hlen⟩
    rw [← hg]
    intro hnil
    rw [hnil] at hlen
    simp at hlen

theorem mem_group_by_hash (hashOf : String → Option String)
    (arr : List FileRecord) (h : String) (ps : List String) :
    (h, ps) ∈ (group_by_hash hashOf arr).1 ↔
      ps = hashBucket hashOf h arr ∧ 1 < ps.length := by
  rw [group_by_hash, List.mem_filter, mem_groupFold_iff]
  constructor
  · rintro ⟨⟨hne, hg⟩, hlen⟩
    exact ⟨hg, by simpa using hlen⟩
  · rintro ⟨hg, hlen⟩
    rw [hashBucket] at hg
    refine ⟨⟨?_, hg⟩, by simpa using hlen⟩
    rw [← hg]
    intro hnil
    rw [hnil] at hlen
    simp at hlen

theorem mem_hashBucket (hashOf : String → Option String) (h : String)
    (l : List FileRecord) (p : String) :
    p ∈ hashBucket hashOf h l ↔
      ∃ f ∈ l, hashKey hashOf f = some h ∧ f.path = p := by
  simp only [hashBucket, bucketOf, List.mem_map, List.mem_filter,
    decide_eq_true_eq]
  constructor
  · rintro ⟨f, ⟨hf, hk⟩, hp⟩
    exact ⟨f, hf, hk, hp⟩
  · rintro ⟨f, hf, hk, hp⟩
    exact ⟨f, ⟨hf, hk⟩, hp⟩

theorem hashOf_of_hashKey {hashOf : String → Option String}
    {f : FileRecord} {h : String} (hk : hashKey hashOf f = some h) :
    hashOf f.path = some h := by
  rw [hashKey] at hk
  cases hh : hashOf f.path with
  | none => rw [hh] at hk; simp at hk
  | some h' =>
      rw [hh] at hk
      by_cases he : h' = ""
      · simp [he] at hk
      · simp [he] at hk
        rw [hk]

theorem hashBucket_empty_iff (hashOf : String → Option String) (h : String)
    (l : List FileRecord) :
    hashBucket hashOf h l = [] ↔
      l.filter (fun f => decide (hashKey hashOf f = some h)) = [] := by
  rw [hashBucket, bucketOf]
  simp [List.map_eq_nil_iff]

theorem groupSizeOf_spec (hashOf : String → Option String) (h : String)
    (l : List FileRecord) (hne : hashBucket hashOf h l ≠ []) :
    ∃ f ∈ l, hashKey hashOf f = some h ∧ groupSizeOf hashOf h l = f.size := by
  have hne' : bucketOf (hashKey hashOf) (fun f => f.size) h l ≠ [] := by
    intro hnil
    apply hne
    rw [hashBucket_empty_iff]
    rw [bucketOf] at hnil
    simpa [List.map_eq_nil_iff] using hnil
  rw [groupSizeOf, lookupA_dictFold, if_neg hne']
  obtain ⟨x, hx⟩ : ∃ x, (bucketOf (hashKey hashOf) (fun f => f.size) h l).getLast? = some x := by
    cases hgl : (bucketOf (hashKey hashOf) (fun f => f.size) h l).getLast? with
    | none => exact absurd (List.getLast?_eq_none_iff.mp hgl) hne'
    | some x => exact ⟨x, rfl⟩
  have hxmem : x ∈ bucketOf (hashKey hashOf) (fun f => f.size) h l :=
    List.mem_of_mem_getLast? hx
  rw [bucketOf] at hxmem
  obtain ⟨f, hf, hfs⟩ := List.mem_map.mp hxmem
  have hf' := List.mem_filter.mp hf
  exact ⟨f, hf'.1, by simpa using hf'.2, by rw [hx]; simpa using hfs.symm⟩

theorem groupSizeOf_const (hashOf : String → Option String) (h : String)
    (l : List FileRecord) (s : Nat) (hall : ∀ f ∈ l, f.size = s)
    (hne : hashBucket hashOf h l ≠ []) :
    groupSizeOf hashOf h l = s := by
  obtain ⟨f, hf, _, heq⟩ := groupSizeOf_spec hashOf h l hne
  rw [heq, hall f hf]

theorem mem_mkGroups_iff (hashOf : String → Option String)
    (sched : List FileRecord → List FileRecord) (files : List FileRecord)
    (dg : DupGroup) :
    dg ∈ mkGroups hashOf sched files ↔
      ∃ s h, 1 < (sizeBucket s files).length ∧
        1 < (hashBucket hashOf h (sched (sizeBucket s files))).length ∧
        dg = mkGroupAt hashOf h (sched (sizeBucket s files)) := by
  rw [mkGroups, List.mem_flatMap]
  constructor
  · rintro ⟨⟨s, g⟩, hsg, hdg⟩
    obtain ⟨hg, hlen⟩ := (mem_group_by_size files s g).mp hsg
    subst hg
    obtain ⟨⟨h, ps⟩, hps, hF⟩ := List.mem_map.mp hdg
    obtain ⟨hps', hpl⟩ := (mem_group_by_hash hashOf _ h ps).mp hps
    refine ⟨s, h, hlen, by rw [← hps']; exact hpl, ?_⟩
    rw [← hF]
    subst hps'
    rfl
  · rintro ⟨s, h, hs, hh, rfl⟩
    refine ⟨(s, sizeBucket s files), (mem_group_by_size files s _).mpr ⟨rfl, hs⟩, ?_⟩
    apply List.mem_map.mpr
    refine ⟨(h, hashBucket hashOf h (sched (sizeBucket s files))),
      (mem_group_by_hash hashOf _ h _).mpr ⟨rfl, hh⟩, rfl⟩

theorem find_duplicates_groups (hashOf : String → Option String)
    (sched : List FileRecord → List FileRecord) (files : List FileRecord) :
    (find_duplicates hashOf sched files).groups = mkGroups hashOf sched files := rfl

/-- The master structural lemma: provided each hashing pool delivers a
permutation of its submitted group, every emitted duplicate group is the
hash bucket of some size `s` and hash `h`, with all the recorded fields
and with every member path backed by a scanned file of size `s` whose
content hash is `h`. -/
theorem mkGroups_spec (hashOf : String → Option String)
    (sched : List FileRecord → List FileRecord) (files : List FileRecord)
    (hperm : ∀ g, (sched g).Perm g) (dg : DupGroup)
    (hdg : dg ∈ mkGroups hashOf sched files) :
    ∃ s h, dg.paths = hashBucket hashOf h (sched (sizeBucket s files)) ∧
      dg.count = dg.paths.length ∧ 2 ≤ dg.count ∧
      dg.size = s ∧ dg.wasted_size = (dg.count - 1) * s ∧
      1 < (sizeBucket s files).length ∧
      ∀ p ∈ dg.paths, ∃ f ∈ files, f.path = p ∧ f.size = s ∧ hashOf p = some h := by
  obtain ⟨s, h, hs, hh, rfl⟩ := (mem_mkGroups_iff hashOf sched files dg).mp hdg
  have hsz : ∀ f ∈ sched (sizeBucket s files), f.size = s := by
    intro f hf
    have : f ∈ sizeBucket s files := (hperm (sizeBucket s files)).mem_iff.mp hf
    simpa [sizeBucket] using (List.mem_filter.mp this).2
  have hne : hashBucket hashOf h (sched (sizeBucket s files)) ≠ [] := by
    intro hnil
    rw [hnil] at hh
    simp at hh
  have hsize : groupSizeOf hashOf h (sched (sizeBucket s files)) = s :=
    groupSizeOf_const hashOf h _ s hsz hne
  refine ⟨s, h, rfl, rfl, hh, hsize, by simp only [mkGroupAt, hsize], hs, ?_⟩
  intro p hp
  obtain ⟨f, hf, hk, hfp⟩ := (mem_hashBucket hashOf h _ p).mp hp
  have hfmem : f ∈ sizeBucket s files := (hperm (sizeBucket s files)).mem_iff.mp hf
  refine ⟨f, List.mem_of_mem_filter hfmem, hfp, hsz f hf, ?_⟩
  rw [← hfp]
  exact hashOf_of_hashKey hk

/-! ## Supporting lemmas: Python max, sum accumulation, chunking, perms -/

theorem foldl_maxBy_le {α : Type} (f : α → Nat) (xs : List α) :
    ∀ x, f x ≤ f (xs.foldl (fun best y => if f best < f y then y else best) x) ∧
      ∀ y ∈ xs, f y ≤ f (xs.foldl (fun best y => if f best < f y then y else best) x) := by
  induction xs with
  | nil =>
      intro x
      exact ⟨Nat.le_refl _, by intro y hy; simp at hy⟩
  | cons a xs ih =>
      intro x
      rw [List.foldl_cons]
      have h1 : f x ≤ f (if f x < f a then a else x) := by
        by_cases h : f x < f a
        · rw [if_pos h]; omega
        · rw [if_neg h]
      have h2 : f a ≤ f (if f x < f a then a else x) := by
        by_cases h : f x < f a
        · rw [if_pos h]
        · rw [if_neg h]; omega
      refine ⟨Nat.le_trans h1 (ih _).1, ?_⟩
      intro y hy
      rcases List.mem_cons.mp hy with rfl | hmem
      · exact Nat.le_trans h2 (ih _).1
      · exact (ih _).2 y hmem

theorem maxByFirst_spec {α : Type} (f : α → Nat) (l : List α) (hne : l ≠ []) :
    ∃ m, maxByFirst f l = some m ∧ ∀ x ∈ l, f x ≤ f m := by
  cases l with
  | nil => exact absurd rfl hne
  | cons x xs =>
      refine ⟨_, rfl, ?_⟩
      intro y hy
      rcases List.mem_cons.mp hy with rfl | hmem
      · exact (foldl_maxBy_le f xs y).1
      · exact (foldl_maxBy_le f xs x).2 y hmem

theorem foldl_add_wasted (l : List DupGroup) :
    ∀ n : Nat, l.foldl (fun t g => t + g.wasted_size) n =
      n + (l.map (fun g => g.wasted_size)).sum := by
  induction l with
  | nil => intro n; simp
  | cons g l ih =>
      intro n
      rw [List.foldl_cons, ih]
      simp
      omega

theorem flatten_chunksOf {α : Type} (c : Nat) (l : List α) :
    (chunksOf c l).flatten = l := by
  generalize hn : l.length = n
  induction n using Nat.strong_induction_on generalizing l with
  | _ n ih =>
    cases l with
    | nil => simp [chunksOf]
    | cons x xs =>
        rw [chunksOf]
        have hlt : (xs.drop (c - 1)).length < n := by
          subst hn
          simp [List.length_drop]
          omega
        rw [List.flatten_cons, ih _ hlt _ rfl, List.cons_append,
          List.take_append_drop]

theorem mem_chunksOf {α : Type} (c : Nat) (l : List α) (hc : 1 ≤ c) :
    ∀ ch ∈ chunksOf c l, ch ≠ [] ∧ ch.length ≤ c := by
  generalize hn : l.length = n
  induction n using Nat.strong_induction_on generalizing l with
  | _ n ih =>
    cases l with
    | nil => simp [chunksOf]
    | cons x xs =>
        rw [chunksOf]
        intro ch hch
        rcases List.mem_cons.mp hch with rfl | hmem
        · refine ⟨by simp, ?_⟩
          simp [List.length_take]
          omega
        · have hlt : (xs.drop (c - 1)).length < n := by
            subst hn
            simp [List.length_drop]
            omega
          exact ih _ hlt _ rfl ch hmem

theorem flatten_map_flatten {α β : Type} (g : α → List β) (L : List (List α)) :
    (L.map (fun chunk => (chunk.map g).flatten)).flatten =
      ((L.flatten).map g).flatten := by
  induction L with
  | nil => simp
  | cons ch L ih => simp [ih]

theorem scan_files_parallel_eq (walk : String → List FileRecord)
    (base_folders : List String) (num_processes : Nat) :
    scan_files_parallel walk base_folders num_processes =
      (base_folders.map walk).flatten := by
  rw [scan_files_parallel]
  split
  · rfl
  · rw [flatten_map_flatten, folder_chunks, flatten_chunksOf]

theorem absorbed_foldl_update (chunks : List (List Nat)) :
    ∀ h : XXH64, (chunks.foldl XXH64.update h).absorbed =
      h.absorbed ++ chunks.flatten := by
  induction chunks with
  | nil => intro h; simp
  | cons ch chunks ih =>
      intro h
      rw [List.foldl_cons, ih]
      simp [XXH64.update]

theorem absorbed_readLoop (c : Nat) (content : List Nat) (hc : 1 ≤ c) :
    (readLoop c content).absorbed = content := by
  rw [readLoop, if_neg (by omega), absorbed_foldl_update, flatten_chunksOf]
  simp [XXH64.new]

theorem sizeBucket_perm (s : Nat) {files₁ files₂ : List FileRecord}
    (hp : files₁.Perm files₂) :
    (sizeBucket s files₁).Perm (sizeBucket s files₂) :=
  hp.filter _

theorem hashBucket_perm (hashOf : String → Option String) (h : String)
    {l₁ l₂ : List FileRecord} (hp : l₁.Perm l₂) :
    (hashBucket hashOf h l₁).Perm (hashBucket hashOf h l₂) :=
  (hp.filter _).map _

/-- One direction of run-to-run matching: every group of one run has a
counterpart in the other run whose path list is a permutation. -/
theorem mkGroups_exists_perm (hashOf : String → Option String)
    (sched₁ sched₂ : List FileRecord → List FileRecord)
    (files₁ files₂ : List FileRecord)
    (h1 : ∀ g, (sched₁ g).Perm g) (h2 : ∀ g, (sched₂ g).Perm g)
    (hf : files₁.Perm files₂) (dg₁ : DupGroup)
    (hdg : dg₁ ∈ mkGroups hashOf sched₁ files₁) :
    ∃ dg₂ ∈ mkGroups hashOf sched₂ files₂, dg₁.paths.Perm dg₂.paths := by
  obtain ⟨s, h, hs, hh, rfl⟩ := (mem_mkGroups_iff hashOf sched₁ files₁ dg₁).mp hdg
  have harr : (sched₁ (sizeBucket s files₁)).Perm (sched₂ (sizeBucket s files₂)) :=
    ((h1 _).trans (sizeBucket_perm s hf)).trans (h2 _).symm
  have hbp : (hashBucket hashOf h (sched₁ (sizeBucket s files₁))).Perm
      (hashBucket hashOf h (sched₂ (sizeBucket s files₂))) :=
    hashBucket_perm hashOf h harr
  refine ⟨mkGroupAt hashOf h (sched₂ (sizeBucket s files₂)), ?_, hbp⟩
  apply (mem_mkGroups_iff hashOf sched₂ files₂ _).mpr
  refine ⟨s, h, ?_, ?_, rfl⟩
  · rw [← (sizeBucket_perm s hf).length_eq]
    exact hs
  · rw [← hbp.length_eq]
    exact hh

/-! ## Concrete run used by the witnesses -/

/-- A 100-byte file at path `a`. -/
def wFileA : FileRecord := ⟨"a", 100, 0⟩

/-- A 100-byte file at path `b`, content-identical to `wFileA`. -/
def wFileB : FileRecord := ⟨"b", 100, 0⟩

/-- A 7-byte file at path `c`, the only file of its size. -/
def wFileC : FileRecord := ⟨"c", 7, 0⟩

/-- Hash oracle of the witness tree: `a` and `b` share digest `h1`; any
other path fails to hash. -/
def wHash : String → Option String :=
  fun p => if p = "a" ∨ p = "b" then some "h1" else none

/-- A hashing pool that completes in submission order. -/
def wSched : List FileRecord → List FileRecord := fun g => g

/-- A two-file scan result. -/
def wFiles : List FileRecord := [wFileA, wFileB]

/-- A three-file scan result with one unique-size file. -/
def wFiles3 : List FileRecord := [wFileA, wFileB, wFileC]

/-- The single duplicate group those runs report. -/
def wGroup : DupGroup := ⟨["a", "b"], 100, 2, 100⟩

/-! ## The claims -/

/-- C1: in every run of the detector, every reported duplicate group's
wasted size equals (number of paths in the group − 1) times the group's
common file size, and the reported total wasted size equals the sum of the
wasted sizes over all reported groups. -/
theorem wasted_size_correct (hashOf : String → Option String)
    (sched : List FileRecord → List FileRecord) (files : List FileRecord) :
    (∀ dg ∈ (find_duplicates hashOf sched files).groups,
        dg.wasted_size = (dg.count - 1) * dg.size) ∧
    (find_duplicates hashOf sched files).total_duplicate_size =
      ((find_duplicates hashOf sched files).groups.map
        (fun g => g.wasted_size)).sum := by
  constructor
  · intro dg hdg
    rw [find_duplicates_groups] at hdg
    obtain ⟨s, h, _, _, rfl⟩ := (mem_mkGroups_iff hashOf sched files dg).mp hdg
    rfl
  · show (mkGroups hashOf sched files).foldl (fun t g => t + g.wasted_size) 0 = _
    rw [foldl_add_wasted, find_duplicates_groups]
    simp

/-- Witness for C1 on the concrete two-file run. -/
theorem wasted_size_correct_witness :
    wGroup.wasted_size = (wGroup.count - 1) * wGroup.size ∧
    (find_duplicates wHash wSched wFiles).total_duplicate_size =
      ((find_duplicates wHash wSched wFiles).groups.map
        (fun g => g.wasted_size)).sum :=
  ⟨(wasted_size_correct wHash wSched wFiles).1 wGroup (by decide),
   (wasted_size_correct wHash wSched wFiles).2⟩

/-- C2: a file whose content hash computation fails (the hasher returns
`None`) appears in no hash group and in no duplicate group, and the
failure does not disturb the hashing of the remaining files: the grouper's
output is the same as on the input with the failed files removed. -/
theorem hash_failure_excluded (hashOf : String → Option String)
    (sched : List FileRecord → List FileRecord)
    (arrivals files : List FileRecord) (p₀ : String)
    (hfail : hashOf p₀ = none) :
    (∀ hp ∈ (group_by_hash hashOf arrivals).1, p₀ ∉ hp.2) ∧
    (∀ dg ∈ (find_duplicates hashOf sched files).groups, p₀ ∉ dg.paths) ∧
    group_by_hash hashOf arrivals =
      group_by_hash hashOf (arrivals.filter (fun f => (hashOf f.path).isSome)) := by
  have hnotin : ∀ (l : List FileRecord) (h : String),
      p₀ ∉ hashBucket hashOf h l := by
    intro l h hp
    obtain ⟨f, _, hk, hfp⟩ := (mem_hashBucket hashOf h l p₀).mp hp
    have : hashOf p₀ = some h := by
      rw [← hfp]
      exact hashOf_of_hashKey hk
    rw [hfail] at this
    exact Option.noConfusion this
  refine ⟨?_, ?_, ?_⟩
  · rintro ⟨h, ps⟩ hps
    obtain ⟨hg, _⟩ := (mem_group_by_hash hashOf arrivals h ps).mp hps
    rw [hg]
    exact hnotin arrivals h
  · intro dg hdg
    rw [find_duplicates_groups] at hdg
    obtain ⟨s, h, _, _, rfl⟩ := (mem_mkGroups_iff hashOf sched files dg).mp hdg
    exact hnotin _ h
  · have hq : ∀ a ∈ arrivals, (fun f => (hashOf f.path).isSome) a = false →
        hashKey hashOf a = none := by
      intro a _ ha
      simp only [] at ha
      cases hh : hashOf a.path with
      | none => simp [hashKey, hh]
      | some h' => rw [hh] at ha; simp at ha
    rw [group_by_hash, group_by_hash, groupFold, groupFold, dictFold, dictFold]
    rw [foldl_groupStep_filter (hashKey hashOf) (fun f => f.path)
        (fun f => (hashOf f.path).isSome) arrivals hq,
      foldl_dictStep_filter (hashKey hashOf) (fun f => f.size)
        (fun f => (hashOf f.path).isSome) arrivals hq]

/-- Witness for C2: path `zz` has no hash; it is absent from the reported
group and filtering unhashable files changes nothing. -/
theorem hash_failure_excluded_witness :
    "zz" ∉ wGroup.paths ∧
    group_by_hash wHash wFiles =
      group_by_hash wHash (wFiles.filter (fun f => (wHash f.path).isSome)) :=
  ⟨(hash_failure_excluded wHash wSched wFiles wFiles "zz" (by decide)).2.1
     wGroup (by decide),
   (hash_failure_excluded wHash wSched wFiles wFiles "zz" (by decide)).2.2⟩

/-- C3: the size grouper returns exactly the partition of its input keyed
by exact byte size restricted to keys with 2 or more members (a pure
single-pass fold, no I/O in the embedding), and consequently a file whose
size is unique in the input appears in no duplicate group of the run. -/
theorem size_grouper_correct (hashOf : String → Option String)
    (sched : List FileRecord → List FileRecord) (files : List FileRecord)
    (hperm : ∀ g, (sched g).Perm g)
    (hpaths : (files.map (fun f => f.path)).Nodup) :
    (∀ s g, (s, g) ∈ group_by_size files ↔
        (g = files.filter (fun f => f.size = s) ∧ 2 ≤ g.length)) ∧
    (∀ f ∈ files, (files.filter (fun x => x.size = f.size)).length = 1 →
      ∀ dg ∈ (find_duplicates hashOf sched files).groups, f.path ∉ dg.paths) := by
  constructor
  · intro s g
    rw [mem_group_by_size]
    exact Iff.rfl
  · intro f hf huniq dg hdg hpmem
    rw [find_duplicates_groups] at hdg
    obtain ⟨s, h, _, _, _, _, _, hsgt, hback⟩ :=
      mkGroups_spec hashOf sched files hperm dg hdg
    obtain ⟨f', hf', hfp, hfs, _⟩ := hback f.path hpmem
    have hff : f' = f :=
      List.inj_on_of_nodup_map hpaths hf' hf hfp
    rw [hff] at hfs
    have : (sizeBucket s files).length = 1 := by
      rw [sizeBucket, ← hfs]
      exact huniq
    omega

/-- Witness for C3: in the three-file run the unique-size file `c` is
absent from the reported duplicate group. -/
theorem size_grouper_correct_witness : wFileC.path ∉ wGroup.paths :=
  (size_grouper_correct wHash wSched wFiles3 (fun g => List.Perm.refl g)
      (by decide)).2
    wFileC (by decide) (by decide) wGroup (by decide)

/-- C4 counterexample: with 5 roots and a worker limit of 3 the
coordinator builds `max 1 (5 / 3) = 1`-sized slices, i.e. 5 contiguous
chunks — not the 3 chunks the claim states — and it spawns one worker per
chunk, so the worker count 5 exceeds the limit 3. -/
theorem scan_chunking_counterexample :
    (["r1", "r2", "r3", "r4", "r5"] : List String).length > 3 ∧
    (folder_chunks ["r1", "r2", "r3", "r4", "r5"] 3).length = 5 ∧
    (folder_chunks ["r1", "r2", "r3", "r4", "r5"] 3).length ≠ 3 := by
  refine ⟨by decide, ?_, ?_⟩ <;> simp [folder_chunks, chunksOf]

/-- C4 amended: when the roots outnumber the worker limit, the coordinator
splits them into contiguous chunks of size `max 1 (roots / workers)` whose
concatenation is the root list in order; one worker is started per chunk
(so the worker count equals the chunk count, which can exceed the limit),
and the overall result is the concatenation of the tree-walker outputs of
all roots. -/
theorem scan_chunking_amended (walk : String → List FileRecord)
    (roots : List String) (w : Nat) (hgt : w < roots.length) :
    (folder_chunks roots w).flatten = roots ∧
    (∀ ch ∈ folder_chunks roots w,
        ch ≠ [] ∧ ch.length ≤ max 1 (roots.length / w)) ∧
    scan_files_parallel walk roots w = (roots.map walk).flatten :=
  ⟨flatten_chunksOf _ roots,
   mem_chunksOf _ roots (Nat.le_max_left 1 _),
   scan_files_parallel_eq walk roots w⟩

/-- Witness for the amended C4 at 5 roots and worker limit 3. -/
theorem scan_chunking_amended_witness :
    (folder_chunks ["r1", "r2", "r3", "r4", "r5"] 3).flatten =
      ["r1", "r2", "r3", "r4", "r5"] ∧
    (∀ ch ∈ folder_chunks ["r1", "r2", "r3", "r4", "r5"] 3,
        ch ≠ [] ∧ ch.length ≤ max 1 ((["r1", "r2", "r3", "r4", "r5"] : List String).length / 3)) ∧
    scan_files_parallel (fun _ => []) ["r1", "r2", "r3", "r4", "r5"] 3 =
      ((["r1", "r2", "r3", "r4", "r5"] : List String).map (fun _ => [])).flatten :=
  scan_chunking_amended (fun _ => []) ["r1", "r2", "r3", "r4", "r5"] 3 (by decide)

/-- C5: if an exception is raised while enumerating the root itself
(`os.walk` yielded nothing and raised), `scan_folder` catches it and
returns the empty list for that root, and the whole run goes on: the
coordinator's output is exactly the other roots' contributions. -/
theorem root_error_yields_empty (walkOf : String → WalkRun) (r : String)
    (herr : (walkOf r).errored = true) (hroot : (walkOf r).dirs = [])
    (pre post : List String) (w : Nat) :
    scan_folder (walkOf r) = [] ∧
    scan_files_parallel (fun x => scan_folder (walkOf x)) (pre ++ r :: post) w =
      (pre.map (fun x => scan_folder (walkOf x))).flatten ++
        (post.map (fun x => scan_folder (walkOf x))).flatten := by
  have hempty : scan_folder (walkOf r) = [] := by
    rw [scan_folder, hroot]
    rfl
  refine ⟨hempty, ?_⟩
  rw [scan_files_parallel_eq]
  simp [hempty]

/-- Witness for C5: a root whose enumeration raises immediately
contributes nothing, the neighbouring roots' files survive. -/
theorem root_error_yields_empty_witness :
    scan_folder (WalkRun.mk [] true) = [] ∧
    scan_files_parallel
        (fun x => scan_folder (if x = "bad" then ⟨[], true⟩
          else ⟨[⟨x, [("f", .ok 3 0)]⟩], false⟩))
        (["good1"] ++ "bad" :: ["good2"]) 4 =
      (["good1"].map (fun x => scan_folder (if x = "bad" then ⟨[], true⟩
        else ⟨[⟨x, [("f", .ok 3 0)]⟩], false⟩))).flatten ++
        (["good2"].map (fun x => scan_folder (if x = "bad" then ⟨[], true⟩
          else ⟨[⟨x, [("f", .ok 3 0)]⟩], false⟩))).flatten :=
  root_error_yields_empty
    (fun x => if x = "bad" then ⟨[], true⟩
      else ⟨[⟨x, [("f", .ok 3 0)]⟩], false⟩)
    "bad" (by decide) (by decide) ["good1"] ["good2"] 4

/-- C6: three files of the same byte size with pairwise different content
hashes yield zero duplicate groups. -/
theorem same_size_different_hashes_no_groups (hashOf : String → Option String)
    (sched : List FileRecord → List FileRecord)
    (hperm : ∀ g, (sched g).Perm g) (a b c : FileRecord)
    (hab : a.size = b.size) (hbc : b.size = c.size)
    (h1 : hashOf a.path ≠ hashOf b.path)
    (h2 : hashOf a.path ≠ hashOf c.path)
    (h3 : hashOf b.path ≠ hashOf c.path) :
    (find_duplicates hashOf sched [a, b, c]).groups = [] ∧
    (find_duplicates hashOf sched [a, b, c]).duplicate_groups_count = 0 := by
  have hmain : mkGroups hashOf sched [a, b, c] = [] := by
    rw [List.eq_nil_iff_forall_not_mem]
    intro dg hdg
    obtain ⟨s, h, _, hh, _⟩ := (mem_mkGroups_iff hashOf sched [a, b, c] dg).mp hdg
    have hcount3 :
        List.countP (fun f => decide (hashKey hashOf f = some h)) [a, b, c] ≤ 1 := by
      have hPab : ¬(hashKey hashOf a = some h ∧ hashKey hashOf b = some h) := by
        rintro ⟨ha', hb'⟩
        exact h1 (by rw [hashOf_of_hashKey ha', hashOf_of_hashKey hb'])
      have hPac : ¬(hashKey hashOf a = some h ∧ hashKey hashOf c = some h) := by
        rintro ⟨ha', hc'⟩
        exact h2 (by rw [hashOf_of_hashKey ha', hashOf_of_hashKey hc'])
      have hPbc : ¬(hashKey hashOf b = some h ∧ hashKey hashOf c = some h) := by
        rintro ⟨hb', hc'⟩
        exact h3 (by rw [hashOf_of_hashKey hb', hashOf_of_hashKey hc'])
      by_cases Pa : hashKey hashOf a = some h <;>
        by_cases Pb : hashKey hashOf b = some h <;>
          by_cases Pc : hashKey hashOf c = some h
      · exact absurd ⟨Pa, Pb⟩ hPab
      · exact absurd ⟨Pa, Pb⟩ hPab
      · exact absurd ⟨Pa, Pc⟩ hPac
      · simp [List.countP_cons, Pa, Pb, Pc]
      · exact absurd ⟨Pb, Pc⟩ hPbc
      · simp [List.countP_cons, Pa, Pb, Pc]
      · simp [List.countP_cons, Pa, Pb, Pc]
      · simp [List.countP_cons, Pa, Pb, Pc]
    have hlen : (hashBucket hashOf h (sched (sizeBucket s [a, b, c]))).length ≤ 1 := by
      rw [hashBucket, bucketOf, List.length_map, ← List.countP_eq_length_filter]
      calc (sched (sizeBucket s [a, b, c])).countP
            (fun f => decide (hashKey hashOf f = some h))
          = (sizeBucket s [a, b, c]).countP
            (fun f => decide (hashKey hashOf f = some h)) :=
            (hperm _).countP_eq _
        _ ≤ List.countP (fun f => decide (hashKey hashOf f = some h)) [a, b, c] :=
            (List.filter_sublist _).countP_le _
        _ ≤ 1 := hcount3
    omega
  constructor
  · rw [find_duplicates_groups]
    exact hmain
  · show (mkGroups hashOf sched [a, b, c]).length = 0
    rw [hmain]
    rfl

/-- Witness for C6 on three concrete same-size files with distinct
hashes. -/
theorem same_size_different_hashes_no_groups_witness :
    (find_duplicates (fun p => some p) (fun g => g)
      [⟨"a", 5, 0⟩, ⟨"b", 5, 0⟩, ⟨"c", 5, 1⟩]).groups = [] ∧
    (find_duplicates (fun p => some p) (fun g => g)
      [⟨"a", 5, 0⟩, ⟨"b", 5, 0⟩, ⟨"c", 5, 1⟩]).duplicate_groups_count = 0 :=
  same_size_different_hashes_no_groups (fun p => some p) (fun g => g)
    (fun g => List.Perm.refl g) ⟨"a", 5, 0⟩ ⟨"b", 5, 0⟩ ⟨"c", 5, 1⟩
    (by decide) (by decide) (by decide) (by decide) (by decide)

/-- C7: whenever at least one duplicate group is reported, the selected
most-duplicated group maximises `count` and the selected largest-waste
group maximises `wasted_size` over the complete set of reported groups. -/
theorem argmax_selections_correct (hashOf : String → Option String)
    (sched : List FileRecord → List FileRecord) (files : List FileRecord)
    (hne : (find_duplicates hashOf sched files).groups ≠ []) :
    ∃ m l, (find_duplicates hashOf sched files).most_duplicated_group = some m ∧
      (find_duplicates hashOf sched files).largest_waste_group = some l ∧
      (∀ g ∈ (find_duplicates hashOf sched files).groups, g.count ≤ m.count) ∧
      (∀ g ∈ (find_duplicates hashOf sched files).groups,
        g.wasted_size ≤ l.wasted_size) := by
  have hne' : mkGroups hashOf sched files ≠ [] := by
    rwa [find_duplicates_groups] at hne
  obtain ⟨m, hm, hmax⟩ :=
    maxByFirst_spec (fun g => g.count) (mkGroups hashOf sched files) hne'
  obtain ⟨l, hl, hlmax⟩ :=
    maxByFirst_spec (fun g => g.wasted_size) (mkGroups hashOf sched files) hne'
  refine ⟨m, l, hm, hl, ?_, ?_⟩
  · intro g hg
    rw [find_duplicates_groups] at hg
    exact hmax g hg
  · intro g hg
    rw [find_duplicates_groups] at hg
    exact hlmax g hg

/-- Witness for C7 on the concrete two-file run. -/
theorem argmax_selections_correct_witness :
    ∃ m l, (find_duplicates wHash wSched wFiles).most_duplicated_group = some m ∧
      (find_duplicates wHash wSched wFiles).largest_waste_group = some l ∧
      (∀ g ∈ (find_duplicates wHash wSched wFiles).groups, g.count ≤ m.count) ∧
      (∀ g ∈ (find_duplicates wHash wSched wFiles).groups,
        g.wasted_size ≤ l.wasted_size) :=
  argmax_selections_correct wHash wSched wFiles (by decide)

/-- C8: every duplicate group of a run satisfies the `DuplicateGroup`
invariant: its count is the number of member paths and is at least 2, all
member paths hash to one common digest, and every member path is backed by
a scanned file whose size is the group's recorded size. -/
theorem dup_group_invariant (hashOf : String → Option String)
    (sched : List FileRecord → List FileRecord) (files : List FileRecord)
    (hperm : ∀ g, (sched g).Perm g) :
    ∀ dg ∈ (find_duplicates hashOf sched files).groups,
      2 ≤ dg.count ∧ dg.count = dg.paths.length ∧
      (∃ h, ∀ p ∈ dg.paths, hashOf p = some h) ∧
      (∀ p ∈ dg.paths, ∃ f ∈ files, f.path = p ∧ f.size = dg.size) := by
  intro dg hdg
  rw [find_duplicates_groups] at hdg
  obtain ⟨s, h, _, hcount, hc2, hsize, _, _, hback⟩ :=
    mkGroups_spec hashOf sched files hperm dg hdg
  refine ⟨hc2, hcount, ⟨h, ?_⟩, ?_⟩
  · intro p hp
    obtain ⟨f, _, _, _, hh⟩ := hback p hp
    exact hh
  · intro p hp
    obtain ⟨f, hf, hfp, hfs, _⟩ := hback p hp
    exact ⟨f, hf, hfp, by rw [hfs, hsize]⟩

/-- Witness for C8 on the concrete two-file run's group. -/
theorem dup_group_invariant_witness :
    2 ≤ wGroup.count ∧ wGroup.count = wGroup.paths.length ∧
    (∃ h, ∀ p ∈ wGroup.paths, wHash p = some h) ∧
    (∀ p ∈ wGroup.paths, ∃ f ∈ wFiles, f.path = p ∧ f.size = wGroup.size) :=
  dup_group_invariant wHash wSched wFiles (fun g => List.Perm.refl g)
    wGroup (by decide)

/-- C9: two runs of the detector over the same unmodified tree — the same
file multiset, possibly enumerated in different orders, and independent
hashing-pool completion orders — report the same collection of duplicate
groups up to ordering: each group of one run has a counterpart in the
other whose path list is equal as a set. -/
theorem idempotent_group_membership (hashOf : String → Option String)
    (sched₁ sched₂ : List FileRecord → List FileRecord)
    (files₁ files₂ : List FileRecord)
    (h1 : ∀ g, (sched₁ g).Perm g) (h2 : ∀ g, (sched₂ g).Perm g)
    (hf : files₁.Perm files₂) :
    (∀ dg₁ ∈ (find_duplicates hashOf sched₁ files₁).groups,
       ∃ dg₂ ∈ (find_duplicates hashOf sched₂ files₂).groups,
         ∀ p, p ∈ dg₁.paths ↔ p ∈ dg₂.paths) ∧
    (∀ dg₂ ∈ (find_duplicates hashOf sched₂ files₂).groups,
       ∃ dg₁ ∈ (find_duplicates hashOf sched₁ files₁).groups,
         ∀ p, p ∈ dg₂.paths ↔ p ∈ dg₁.paths) := by
  constructor
  · intro dg₁ hdg₁
    rw [find_duplicates_groups] at hdg₁
    obtain ⟨dg₂, hdg₂, hp⟩ :=
      mkGroups_exists_perm hashOf sched₁ sched₂ files₁ files₂ h1 h2 hf dg₁ hdg₁
    refine ⟨dg₂, ?_, fun p => hp.mem_iff⟩
    rw [find_duplicates_groups]
    exact hdg₂
  · intro dg₂ hdg₂
    rw [find_duplicates_groups] at hdg₂
    obtain ⟨dg₁, hdg₁, hp⟩ :=
      mkGroups_exists_perm hashOf sched₂ sched₁ files₂ files₁ h2 h1 hf.symm dg₂ hdg₂
    refine ⟨dg₁, ?_, fun p => hp.mem_iff⟩
    rw [find_duplicates_groups]
    exact hdg₁

/-- Witness for C9: the two-file run against the run with reversed file
order and a reversing hashing pool. -/
theorem idempotent_group_membership_witness :
    (∀ dg₁ ∈ (find_duplicates wHash wSched wFiles).groups,
       ∃ dg₂ ∈ (find_duplicates wHash (fun g => g.reverse) wFiles.reverse).groups,
         ∀ p, p ∈ dg₁.paths ↔ p ∈ dg₂.paths) ∧
    (∀ dg₂ ∈ (find_duplicates wHash (fun g => g.reverse) wFiles.reverse).groups,
       ∃ dg₁ ∈ (find_duplicates wHash wSched wFiles).groups,
         ∀ p, p ∈ dg₂.paths ↔ p ∈ dg₁.paths) :=
  idempotent_group_membership wHash wSched (fun g => g.reverse)
    wFiles wFiles.reverse (fun g => List.Perm.refl g)
    (fun g => List.reverse_perm g) (List.reverse_perm wFiles).symm

/-- C10: for every file content and every positive chunk size, the
streaming chunked hash computed by `compute_fast_hash` absorbs exactly the
content absorbed by a single whole-content update, so the digest is the
same, and is independent of the chunk size used to split the content. -/
theorem chunked_hash_eq_single_update (hexOf : List Nat → String) (c : Nat)
    (content : List Nat) (hc : 1 ≤ c) :
    compute_fast_hash hexOf c (some content) =
      some (hexOf (XXH64.new.update content).absorbed) ∧
    ∀ c', 1 ≤ c' →
      compute_fast_hash hexOf c (some content) =
        compute_fast_hash hexOf c' (some content) := by
  constructor
  · show some (hexOf (readLoop c content).absorbed) =
      some (hexOf (XXH64.new.update content).absorbed)
    rw [absorbed_readLoop c content hc]
    simp [XXH64.new, XXH64.update]
  · intro c' hc'
    show some (hexOf (readLoop c content).absorbed) =
      some (hexOf (readLoop c' content).absorbed)
    rw [absorbed_readLoop c content hc, absorbed_readLoop c' content hc']

/-- Witness for C10 at chunk size 2 on a 5-byte content. -/
theorem chunked_hash_eq_single_update_witness :
    compute_fast_hash (fun l => toString l) 2 (some [1, 2, 3, 4, 5]) =
      some ((fun l : List Nat => toString l) (XXH64.new.update [1, 2, 3, 4, 5]).absorbed) ∧
    ∀ c', 1 ≤ c' →
      compute_fast_hash (fun l => toString l) 2 (some [1, 2, 3, 4, 5]) =
        compute_fast_hash (fun l => toString l) c' (some [1, 2, 3, 4, 5]) :=
  chunked_hash_eq_single_update (fun l => toString l) 2 [1, 2, 3, 4, 5] (by decide)

end DuplicateDetective
